import Mathlib

/-!
# Verification of the tinydb storage engine (Flint92/tinydb)

Shallow embedding of the core of the tinydb key-value store:

* the node codec (`node.go`): binary layout of a page as a B+Tree node,
  modelled as a header (`btype`, `nkeys`) plus the list of entries written
  into the kv-area;
* the copy-on-write B+Tree (`btree.go`): `Insert`, `Delete`, the recursive
  `treeInsert`/`treeDelete`, splitting (`nodeSplit3`/`nodeSplit2`),
  merging (`nodeMerge`) and rebalancing (`shouldMerge`);
* the pager (`kv.go`, free-list revision): the `updates` table,
  `pageGet`/`pageGetMapped`, `syncPages`, and the commit event order of
  `flushPages`;
* the persistent free list (`freelist.go`): `Total`, `Update`, `flPush`
  over an abstract page store with `get`/`new`/`use` callbacks.

Machine integers that can overflow are irrelevant here (all sizes are far
below 2^16 on the inputs considered, and page numbers far below 2^64), so
sizes and pointers are modelled as `Nat`; byte strings as `List Nat`.

A node's header `nkeys` field is kept separate from the list of entries
actually written, because the two can disagree (this is exactly what the
`nodeMerge` header bug produces); a reader that walks `i < nkeys` past the
written entries sees unwritten (zero) bytes, modelled by `junkEntry`.
-/

set_option maxRecDepth 8192

namespace TinyDb

/-- Byte strings are modelled as lists of naturals, one per byte. -/
abbrev Bytes := List Nat

/-- `bytes.Compare`: three-way lexicographic comparison of byte strings. -/
def bytesCompare : Bytes → Bytes → Ordering
  | [], [] => .eq
  | [], _ :: _ => .lt
  | _ :: _, [] => .gt
  | a :: as, b :: bs =>
    if a < b then .lt else if b < a then .gt else bytesCompare as bs

/-- `BTREE_PAGE_SIZE = 4096`. -/
def BTREE_PAGE_SIZE : Nat := 4096

/-- `BTREE_PAGE_MAX_KEY_SIZE = 1000`. -/
def BTREE_PAGE_MAX_KEY_SIZE : Nat := 1000

/-- `BTREE_PAGE_MAX_VALUE_SIZE = 3000`. -/
def BTREE_PAGE_MAX_VALUE_SIZE : Nat := 3000

/-- `HEADER = 4`: type (2B) + nkeys (2B). -/
def HEADER : Nat := 4

/-- Node type tag of internal nodes. -/
def BNODE_NODE : Nat := 1

/-- Node type tag of leaf nodes. -/
def BNODE_LEAF : Nat := 2

/-- One entry of a tree node: an 8-byte pointer, plus the kv-area record
`| klen | vlen | key | val |`.  Internal nodes store `val = []`. -/
structure Entry where
  ptr : Nat
  key : Bytes
  val : Bytes
deriving Repr, DecidableEq

/-- The bytes one entry occupies in the kv-area: `4 + klen + vlen`. -/
def Entry.esize (e : Entry) : Nat := 4 + e.key.length + e.val.length

/-- Reading pointer/key/value slots past the entries actually written
returns unwritten (zeroed) buffer bytes: pointer 0, empty key and value. -/
def junkEntry : Entry := ⟨0, [], []⟩

/-- A tree node: header type field, header key-count field, and the list of
entries written into the pointer/offset/kv areas.  For a well-formed node
`nkeys = entries.length`; the two are kept separate because buggy builders
can write a header count that disagrees with the written entries. -/
structure BNode where
  btype : Nat
  nkeys : Nat
  entries : List Entry
deriving Repr, DecidableEq

/-- `getPtr`/`getKey`/`getVal` source entry: entry `i` as written, or junk
(zero bytes) beyond the written entries. -/
def BNode.entryAt (n : BNode) (i : Nat) : Entry := n.entries.getD i junkEntry

/-- `node.getPtr(idx)`. -/
def BNode.getPtr (n : BNode) (i : Nat) : Nat := (n.entryAt i).ptr

/-- `node.getKey(idx)`. -/
def BNode.getKey (n : BNode) (i : Nat) : Bytes := (n.entryAt i).key

/-- `node.getVal(idx)`. -/
def BNode.getVal (n : BNode) (i : Nat) : Bytes := (n.entryAt i).val

/-- `node.getOffset(idx)`: cumulative kv-area size of the first `idx`
written entries (`getOffset 0 = 0`; the builders store the running sum). -/
def BNode.getOffset (n : BNode) (idx : Nat) : Nat :=
  ((n.entries.take idx).map Entry.esize).sum

/-- `node.kvPos(idx) = HEADER + 8*nkeys + 2*nkeys + getOffset(idx)`. -/
def BNode.kvPos (n : BNode) (idx : Nat) : Nat :=
  HEADER + 8 * n.nkeys + 2 * n.nkeys + n.getOffset idx

/-- `node.nbytes() = kvPos(nkeys)`. -/
def BNode.nbytes (n : BNode) : Nat := n.kvPos n.nkeys

/-- `nodeAppendRange(new, old, dst, src, cnt)` copies `cnt` consecutive
entries starting at `src`; this is the list of entries it copies. -/
def BNode.slice (n : BNode) (src cnt : Nat) : List Entry :=
  (List.range cnt).map (fun i => n.entryAt (src + i))

/-- `nodeLookupLE` scan: starting at index `i` with current candidate
`found`, walk `i < nkeys`; `cmp <= 0` updates `found`, `cmp >= 0` breaks.
The loop runs at most `nkeys` iterations; `steps` is a structural bound on
the remaining iterations (never exhausted when `steps ≥ nkeys - i`). -/
def nodeLookupLEAux (node : BNode) (key : Bytes) :
    Nat → Nat → Nat → Nat
  | 0, _, found => found
  | steps + 1, i, found =>
    if i < node.nkeys then
      let cmp := bytesCompare (node.getKey i) key
      let found' := if cmp = .gt then found else i
      if cmp = .lt then nodeLookupLEAux node key steps (i + 1) found' else found'
    else found

/-- `nodeLookupLE(node, key)`: greatest index whose key is `<= key`,
starting the scan at index 1 (index 0 is the dummy first key). -/
def nodeLookupLE (node : BNode) (key : Bytes) : Nat :=
  nodeLookupLEAux node key node.nkeys 1 0

/-- `leafInsert(new, old, idx, key, value)`. -/
def leafInsert (old : BNode) (idx : Nat) (key value : Bytes) : BNode :=
  ⟨BNODE_LEAF, old.nkeys + 1,
    old.slice 0 idx ++ ⟨0, key, value⟩ :: old.slice idx (old.nkeys - idx)⟩

/-- `leafUpdate(new, old, idx, key, value)`. -/
def leafUpdate (old : BNode) (idx : Nat) (key value : Bytes) : BNode :=
  ⟨BNODE_LEAF, old.nkeys,
    old.slice 0 idx ++ ⟨0, key, value⟩ :: old.slice (idx + 1) (old.nkeys - idx - 1)⟩

/-- `leafDelete(new, old, idx)`. -/
def leafDelete (old : BNode) (idx : Nat) : BNode :=
  ⟨BNODE_LEAF, old.nkeys - 1,
    old.slice 0 idx ++ old.slice (idx + 1) (old.nkeys - idx - 1)⟩

/-- `nodeMerge(new, left, right)`: concatenates the entries of the two
nodes, with the header written exactly as in the source:
`new.setHeader(left.btype(), left.nkeys()+right.btype())` — the key count
adds the right sibling's *type tag*, not its key count. -/
def nodeMerge (left right : BNode) : BNode :=
  ⟨left.btype, left.nkeys + right.btype,
    left.slice 0 left.nkeys ++ right.slice 0 right.nkeys⟩

/-- The quantity `HEADER + 8*rightCount + 2*rightCount +
(old.nbytes() - old.getOffset(nkeys-rightCount))` computed by the
`nodeSplit2` loop for a candidate `rightCount`.  Note the last summand is
`nbytes - offset`, which besides the kv-tail also contains the whole old
node's header and pointer/offset arrays. -/
def splitRightBytes (old : BNode) (rc : Nat) : Nat :=
  HEADER + 8 * rc + 2 * rc + (old.nbytes - old.getOffset (old.nkeys - rc))

/-- The `nodeSplit2` search loop: starting from candidate `rc`, stop at the
first candidate whose `splitRightBytes` reaches `BTREE_PAGE_SIZE`
(keeping it on equality, stepping back by one on overshoot); the loop
condition is `rc ≤ nkeys`.  `steps` is a structural bound on the remaining
iterations (never exhausted when `steps > nkeys - rc`). -/
def splitRightCountAux (old : BNode) : Nat → Nat → Nat
  | 0, rc => rc
  | steps + 1, rc =>
    if rc ≤ old.nkeys then
      let rb := splitRightBytes old rc
      if rb = BTREE_PAGE_SIZE then rc
      else if rb > BTREE_PAGE_SIZE then rc - 1
      else splitRightCountAux old steps (rc + 1)
    else rc

/-- The `rightCount` chosen by `nodeSplit2` (loop starts at 1). -/
def splitRightCount (old : BNode) : Nat :=
  splitRightCountAux old (old.nkeys + 1) 1

/-- `nodeSplit2(left, right, old)`: split `old` at
`idx = nkeys - rightCount`. -/
def nodeSplit2 (old : BNode) : BNode × BNode :=
  let rc := splitRightCount old
  let idx := old.nkeys - rc
  (⟨old.btype, idx, old.slice 0 idx⟩,
   ⟨old.btype, old.nkeys - idx, old.slice idx (old.nkeys - idx)⟩)

/-- `nodeSplit3(old)`: returns 1, 2 or 3 nodes.  (In the 1-node case the
source merely truncates the buffer view to one page, which does not change
the node's content.) -/
def nodeSplit3 (old : BNode) : Nat × List BNode :=
  if old.nbytes ≤ BTREE_PAGE_SIZE then (1, [old])
  else
    let lr := nodeSplit2 old
    if lr.1.nbytes ≤ BTREE_PAGE_SIZE then (2, [lr.1, lr.2])
    else
      let lm := nodeSplit2 lr.1
      (3, [lm.1, lm.2, lr.2])

/-! ## The copy-on-write B+Tree over a page store

The tree reaches its pages through the `get`/`new`/`del` callbacks.  They
are modelled by an explicit page map in which `new` hands out a page
number never handed out before (as the pager's `flushed + nappend`
allocation and the in-memory test harness of `btree_test.go` both do),
`get` dereferences and `del` removes a page. -/

/-- The page store behind the `get`/`new`/`del` callbacks. -/
structure Pages where
  next : Nat
  map : List (Nat × BNode)
deriving Repr, DecidableEq

/-- `get` callback: dereference a page number. -/
def Pages.get (st : Pages) (p : Nat) : Option BNode := st.map.lookup p

/-- `new` callback: allocate a fresh page number for a node image. -/
def Pages.alloc (st : Pages) (nd : BNode) : Nat × Pages :=
  (st.next, ⟨st.next + 1, (st.next, nd) :: st.map⟩)

/-- `del` callback: deallocate a page. -/
def Pages.del (st : Pages) (p : Nat) : Pages :=
  ⟨st.next, st.map.filter (fun e => decide (e.1 ≠ p))⟩

/-- Allocate each of the `kids` in order (`tree.new(node)`) and produce
the router entries `(ptr, node.getKey(0), nil)` used by the callers. -/
def allocKids (st : Pages) (kids : List BNode) : Pages × List Entry :=
  match kids with
  | [] => (st, [])
  | kd :: rest =>
    let pr := st.alloc kd
    let r := allocKids pr.2 rest
    (r.1, ⟨pr.1, kd.getKey 0, []⟩ :: r.2)

/-- `nodeReplaceKidN(tree, new, old, idx, kids...)`: replace the link at
`idx` by one link per kid, allocating each kid. -/
def nodeReplaceKidN (st : Pages) (old : BNode) (idx : Nat) (kids : List BNode) :
    Pages × BNode :=
  let r := allocKids st kids
  (r.1,
   ⟨BNODE_NODE, old.nkeys + kids.length - 1,
     old.slice 0 idx ++ r.2 ++ old.slice (idx + 1) (old.nkeys - (idx + 1))⟩)

/-- `nodeReplaceKid2(new, old, idx, merged, key)`: replace the adjacent
pair at `idx`, `idx+1` by the single pointer `merged` with router `key`. -/
def nodeReplaceKid2 (old : BNode) (idx : Nat) (merged : Nat) (key : Bytes) : BNode :=
  ⟨BNODE_NODE, old.nkeys - 1,
    old.slice 0 idx ++ ⟨merged, key, []⟩ :: old.slice (idx + 2) (old.nkeys - (idx + 2))⟩

/-- `treeInsert`/`nodeInsert` can fail in the model: on exhausted fuel, on
a dangling page dereference, or on a node of unknown type (where the
source panics).  The internal-node branch is the body of `nodeInsert`,
inlined here so that the recursion is structural on the fuel. -/
def treeInsert : Nat → Pages → BNode → Bytes → Bytes → Option (Pages × BNode)
  | 0, _, _, _, _ => none
  | fuel + 1, st, node, key, val =>
    let idx := nodeLookupLE node key
    if node.btype = BNODE_LEAF then
      if node.getKey idx = key then some (st, leafUpdate node idx key val)
      else some (st, leafInsert node (idx + 1) key val)
    else if node.btype = BNODE_NODE then
      let kptr := node.getPtr idx
      match st.get kptr with
      | none => none
      | some knode =>
        let st1 := st.del kptr
        match treeInsert fuel st1 knode key val with
        | none => none
        | some r =>
          let ns := nodeSplit3 r.2
          some (nodeReplaceKidN r.1 node idx (ns.2.take ns.1))
    else none

/-- `nodeInsert(tree, new, node, idx, key, val)`: recurse into the kid at
`idx`, deallocate it, split the result, relink.  (Its body is inlined in
the internal-node branch of `treeInsert` above.) -/
def nodeInsert (fuel : Nat) (st : Pages) (node : BNode) (idx : Nat)
    (key val : Bytes) : Option (Pages × BNode) :=
  let kptr := node.getPtr idx
  match st.get kptr with
  | none => none
  | some knode =>
    let st1 := st.del kptr
    match treeInsert fuel st1 knode key val with
    | none => none
    | some r =>
      let ns := nodeSplit3 r.2
      some (nodeReplaceKidN r.1 node idx (ns.2.take ns.1))

/-- A tree handle: the root pointer plus the page store. -/
structure TreeState where
  root : Nat
  pages : Pages
deriving Repr, DecidableEq

/-- `BTree.Insert(key, value)` (package btree, `btree.go`): key/value size
violations panic in the source and are modelled as `none`.  The
root-split branch's loop `for i, knode := range splitted` walks the
whole `[3]BNode` array `nodeSplit3` returns, not `splitted[:nsplit]`:
with a two-way split the third slot is the zero `BNode`, and
`knode.getKey(0)` dereferences its nil buffer — a panic, modelled
`none`.  (Only the list of real split nodes is carried here, so a list
shorter than the array means the loop reaches a zero node.) -/
def Insert (fuel : Nat) (ts : TreeState) (key value : Bytes) : Option TreeState :=
  if key.length = 0 ∨ key.length > BTREE_PAGE_MAX_KEY_SIZE then none
  else if value.length > BTREE_PAGE_MAX_VALUE_SIZE then none
  else if ts.root = 0 then
    let root : BNode := ⟨BNODE_LEAF, 2, [⟨0, [], []⟩, ⟨0, key, value⟩]⟩
    let pr := ts.pages.alloc root
    some ⟨pr.1, pr.2⟩
  else
    match ts.pages.get ts.root with
    | none => none
    | some node =>
      let st1 := ts.pages.del ts.root
      match treeInsert fuel st1 node key value with
      | none => none
      | some r =>
        let ns := nodeSplit3 r.2
        if ns.1 > 1 then
          if ns.2.length < 3 then none
          else
            let ak := allocKids r.1 ns.2
            let root : BNode := ⟨BNODE_NODE, ns.1, ak.2⟩
            let pr := ak.1.alloc root
            some ⟨pr.1, pr.2⟩
        else
          match ns.2 with
          | [] => none
          | s0 :: _ =>
            let pr := r.1.alloc s0
            some ⟨pr.1, pr.2⟩

/-- Result of `treeDelete`: the `BNode{}` not-found sentinel, an updated
store and node, or a modelled stuck state (dangling page, bad type). -/
inductive DelRes where
  | notFound
  | ok (st : Pages) (nd : BNode)
  | err
deriving Repr, DecidableEq

/-- `shouldMerge(tree, node, idx, updated)`: merge direction and sibling;
`none` models a dangling sibling dereference. -/
def shouldMerge (st : Pages) (node : BNode) (idx : Nat) (updated : BNode) :
    Option (Int × BNode) :=
  if updated.nbytes > BTREE_PAGE_SIZE / 4 then some (0, ⟨0, 0, []⟩)
  else
    let tryLeft : Option (Option BNode) :=
      if idx > 0 then
        match st.get (node.getPtr (idx - 1)) with
        | none => none
        | some sibling =>
          if sibling.nbytes + updated.nbytes - HEADER ≤ BTREE_PAGE_SIZE then
            some (some sibling)
          else some none
      else some none
    match tryLeft with
    | none => none
    | some (some sibling) => some (-1, sibling)
    | some none =>
      if idx + 1 < node.nkeys then
        match st.get (node.getPtr (idx + 1)) with
        | none => none
        | some sibling =>
          if sibling.nbytes + updated.nbytes - HEADER ≤ BTREE_PAGE_SIZE then
            some (1, sibling)
          else some (0, ⟨0, 0, []⟩)
      else some (0, ⟨0, 0, []⟩)

/-- `treeDelete(tree, node, key)`.  The internal-node branch is the body
of `nodeDelete`, inlined so that the recursion is structural on the
fuel. -/
def treeDelete : Nat → Pages → BNode → Bytes → DelRes
  | 0, _, _, _ => .err
  | fuel + 1, st, node, key =>
    let idx := nodeLookupLE node key
    if node.btype = BNODE_LEAF then
      if node.getKey idx = key then .ok st (leafDelete node idx) else .notFound
    else if node.btype = BNODE_NODE then
      let kptr := node.getPtr idx
      match st.get kptr with
      | none => .err
      | some knode =>
        match treeDelete fuel st knode key with
        | .notFound => .notFound
        | .err => .err
        | .ok st1 updated =>
          let st2 := st1.del kptr
          match shouldMerge st2 node idx updated with
          | none => .err
          | some ds =>
            if ds.1 < 0 then
              let merged := nodeMerge ds.2 updated
              let st3 := st2.del (node.getPtr (idx - 1))
              let pr := st3.alloc merged
              .ok pr.2 (nodeReplaceKid2 node (idx - 1) pr.1 (merged.getKey 0))
            else if ds.1 > 0 then
              let merged := nodeMerge updated ds.2
              let st3 := st2.del (node.getPtr (idx + 1))
              let pr := st3.alloc merged
              .ok pr.2 (nodeReplaceKid2 node idx pr.1 (merged.getKey 0))
            else
              if updated.nkeys = 0 then .ok st2 ⟨BNODE_NODE, 0, []⟩
              else
                let r := nodeReplaceKidN st2 node idx [updated]
                .ok r.1 r.2
    else .err

/-- `nodeDelete(tree, node, idx, key)`: recurse into the kid, deallocate
it, rebalance by merging when `shouldMerge` says so.  (Its body is inlined
in the internal-node branch of `treeDelete` above.) -/
def nodeDelete (fuel : Nat) (st : Pages) (node : BNode) (idx : Nat) (key : Bytes) :
    DelRes :=
  let kptr := node.getPtr idx
  match st.get kptr with
  | none => .err
  | some knode =>
    match treeDelete fuel st knode key with
    | .notFound => .notFound
    | .err => .err
    | .ok st1 updated =>
      let st2 := st1.del kptr
      match shouldMerge st2 node idx updated with
      | none => .err
      | some ds =>
        if ds.1 < 0 then
          let merged := nodeMerge ds.2 updated
          let st3 := st2.del (node.getPtr (idx - 1))
          let pr := st3.alloc merged
          .ok pr.2 (nodeReplaceKid2 node (idx - 1) pr.1 (merged.getKey 0))
        else if ds.1 > 0 then
          let merged := nodeMerge updated ds.2
          let st3 := st2.del (node.getPtr (idx + 1))
          let pr := st3.alloc merged
          .ok pr.2 (nodeReplaceKid2 node idx pr.1 (merged.getKey 0))
        else
          if updated.nkeys = 0 then .ok st2 ⟨BNODE_NODE, 0, []⟩
          else
            let r := nodeReplaceKidN st2 node idx [updated]
            .ok r.1 r.2

/-- `BTree.Delete(key)`: returns whether the key existed; `none` models a
panic (bad key) or a stuck dereference. -/
def Delete (fuel : Nat) (ts : TreeState) (key : Bytes) : Option (TreeState × Bool) :=
  if key.length = 0 ∨ key.length > BTREE_PAGE_MAX_KEY_SIZE then none
  else if ts.root = 0 then some (ts, false)
  else
    match ts.pages.get ts.root with
    | none => none
    | some node =>
      match treeDelete fuel ts.pages node key with
      | .notFound => some (ts, false)
      | .err => none
      | .ok st1 updated =>
        let st2 := st1.del ts.root
        if updated.btype = BNODE_NODE ∧ updated.nkeys = 1 then
          some (⟨updated.getPtr 0, st2⟩, true)
        else
          let pr := st2.alloc updated
          some (⟨pr.1, pr.2⟩, true)

/-- Modelled from the spec: `BTree.Get` is called by `KV.Get` (kv.go) but
its definition is not among the source files.  Per the spec, "`Get(key)`:
returns (value, found). Traverses leaves", descending through internal
nodes via the `nodeLookupLE` child and comparing the key at the found
index in the leaf. -/
def treeGet : Nat → Pages → BNode → Bytes → Option (Bytes × Bool)
  | 0, _, _, _ => none
  | fuel + 1, st, node, key =>
    let idx := nodeLookupLE node key
    if node.btype = BNODE_LEAF then
      if node.getKey idx = key then some (node.getVal idx, true)
      else some ([], false)
    else if node.btype = BNODE_NODE then
      match st.get (node.getPtr idx) with
      | none => none
      | some knode => treeGet fuel st knode key
    else none

/-- Modelled from the spec: `BTree.Get` at the tree handle: an empty tree
(root pointer 0) holds nothing. -/
def Get (fuel : Nat) (ts : TreeState) (key : Bytes) : Option (Bytes × Bool) :=
  if ts.root = 0 then some ([], false)
  else
    match ts.pages.get ts.root with
    | none => none
    | some node => treeGet fuel ts.pages node key

/-- The empty tree over an empty store (page numbers start at 1; pointer 0
is the null pointer). -/
def emptyTree : TreeState := ⟨0, ⟨1, []⟩⟩

/-! ## The pager (`kv.go`, free-list revision)

The pager stores raw page images.  `updates` is the pending-mutation
table: `some img` is a fresh image to write, `none` is the tombstone left
by `pageDel`.  The mmap is a list of chunks, each covering a run of
pages. -/

/-- A raw page image. -/
abbrev Img := Bytes

/-- The pager's `page` struct: `flushed`, `nfree`, `nappend` and the
pending `updates` table (an association list standing for the Go map; a
`none` image is the `nil` tombstone). -/
structure KVPage where
  flushed : Nat
  nfree : Nat
  nappend : Nat
  updates : List (Nat × Option Img)
deriving Repr, DecidableEq

/-- The pager state: the mmap chunks (each a list of page images) and the
`page` struct. -/
structure KVState where
  chunks : List (List Img)
  page : KVPage
deriving Repr, DecidableEq

/-- Look up a key in an association list (the Go map read `u[ptr]`). -/
def assocFind (u : List (Nat × Option Img)) (k : Nat) : Option (Option Img) :=
  u.lookup k

/-- `pageGetMapped(ptr)`: walk the chunks accumulating `len/PAGE_SIZE`
pages per chunk and return the addressed page; `none` models the
`panic("bad ptr")` at the end of the walk. -/
def pageGetMapped (chunks : List (List Img)) (ptr : Nat) : Option Img :=
  match chunks with
  | [] => none
  | c :: rest => if ptr < c.length then c.get? ptr else pageGetMapped rest (ptr - c.length)

/-- What `pageGet` returns: a pending image or a mapped page (`node`), the
`BNode{data: nil}` produced by wrapping a `nil` tombstone (`nilNode`), or
the `panic("bad ptr")` of the mapped walk (`badPtr`). -/
inductive PageGot where
  | node (img : Img)
  | nilNode
  | badPtr
deriving Repr, DecidableEq

/-- `pageGet(ptr)` (kv.go, free-list revision): `if page, ok :=
db.page.updates[ptr]; ok { return NewBNode(page) }` — any present entry is
returned, a `nil` tombstone included — else fall back to the mmap. -/
def pageGet (st : KVState) (ptr : Nat) : PageGot :=
  match assocFind st.page.updates ptr with
  | some (some img) => .node img
  | some none => .nilNode
  | none =>
    match pageGetMapped st.chunks ptr with
    | some img => .node img
    | none => .badPtr

/-- The number of non-`nil` images in `updates` — the `pageNewCount` that
`syncPages` computes. -/
def pageNewCount (u : List (Nat × Option Img)) : Nat :=
  (u.filter (fun e => e.2.isSome)).length

/-- `syncPages` (kv.go, free-list revision), success path, as a state
transition: `flushed += pageNewCount`; `updates` is replaced by a fresh
empty map; `nfree` and `nappend` are left untouched. -/
def syncPages (st : KVState) : KVState :=
  { st with
    page := { st.page with
      flushed := st.page.flushed + pageNewCount st.page.updates
      updates := [] } }

/-- The observable commit actions of `flushPages` in the order the code
performs them. -/
inductive CommitEvent where
  | writePage (ptr : Nat)
  | masterWrite
  | fsync
deriving Repr, DecidableEq

/-- The page copies performed by `writePages` (one per non-`nil` entry of
`updates`; `Freelist.Update`, `extendFile` and `extendMmap` issue no page
copy, no master write and no fsync). -/
def writePagesEvents (u : List (Nat × Option Img)) : List CommitEvent :=
  (u.filter (fun e => e.2.isSome)).map (fun e => .writePage e.1)

/-- The actions of `syncPages` (kv.go, free-list revision): the master
page is rewritten (`materStore`) and then a single `fsync` is issued. -/
def syncPagesEvents : List CommitEvent := [.masterWrite, .fsync]

/-- The actions of `flushPages` = `writePages` then `syncPages`, as a
function of the `updates` table after the free-list update. -/
def flushPagesEvents (u : List (Nat × Option Img)) : List CommitEvent :=
  writePagesEvents u ++ syncPagesEvents

/-! ## The persistent free list (`freelist.go`)

The free list reaches its pages through injected `get`/`new`/`use`
callbacks (the pager's `pageGet`, `pageAppend`, `pageUse`).  They are
modelled by an abstract store in which `new` hands out a fresh page
number (`pageAppend` allocates `flushed + nappend`, strictly beyond every
page handed out before) and `use` overwrites the image at a given page
number.  Callback invocations are recorded in a trace. -/

/-- Free-list node type tag. -/
def BNODE_FREE_LIST : Nat := 3

/-- `FREE_LIST_HEADER = 4 + 8 + 8`. -/
def FREE_LIST_HEADER : Nat := 20

/-- `FREE_LIST_CAP = (BTREE_PAGE_SIZE - FREE_LIST_HEADER) / 8 = 509`. -/
def FREE_LIST_CAP : Nat := (BTREE_PAGE_SIZE - FREE_LIST_HEADER) / 8

/-- A free-list node: `| type | size | total | next | pointers |`.  `size`
is the header count field, `ptrs` the pointer slots written. -/
structure FNode where
  size : Nat
  total : Nat
  next : Nat
  ptrs : List Nat
deriving Repr, DecidableEq

/-- `flnPtr(node, idx)`: pointer slot `idx`; beyond the written slots the
buffer holds zero bytes. -/
def flnPtr (node : FNode) (idx : Nat) : Nat := node.ptrs.getD idx 0

/-- The page store behind the free list's `get`/`new`/`use` callbacks. -/
structure FStore where
  next : Nat
  pages : List (Nat × FNode)
deriving Repr, DecidableEq

/-- Look up a page number in an association list of free-list pages (the
Go map read). -/
def assocGetF (u : List (Nat × FNode)) (k : Nat) : Option FNode :=
  match u with
  | [] => none
  | (k', v) :: rest => if k' = k then some v else assocGetF rest k

/-- `get` callback. -/
def flGet (s : FStore) (p : Nat) : Option FNode := assocGetF s.pages p

/-- Replace-or-insert in an association list of free-list pages. -/
def assocSetF (u : List (Nat × FNode)) (k : Nat) (v : FNode) : List (Nat × FNode) :=
  match u with
  | [] => [(k, v)]
  | (k', v') :: rest => if k' = k then (k, v) :: rest else (k', v') :: assocSetF rest k v

/-- Replace-or-insert at a page number (the `use` callback's write, and
the write-through of `flnSetTotal`). -/
def fstoreSet (s : FStore) (p : Nat) (n : FNode) : FStore :=
  ⟨s.next, assocSetF s.pages p n⟩

/-- `new` callback (`pageAppend`): a page number never handed out. -/
def fstoreAlloc (s : FStore) (n : FNode) : Nat × FStore :=
  (s.next, ⟨s.next + 1, (s.next, n) :: s.pages⟩)

/-- A recorded callback invocation. -/
inductive FEvent where
  | get (p : Nat)
  | new (p : Nat)
  | use (p : Nat)
deriving Repr, DecidableEq

/-- The mutable locals of the `Update` drain loop. -/
structure FlDrainState where
  head : Nat
  popn : Nat
  freed : List Nat
  reuse : List Nat
  total : Nat
deriving Repr, DecidableEq

/-- The phase-2 inner loop of `Update`: `for remain > 0 &&
len(reuse)*FREE_LIST_CAP < len(freed)+remain { remain--; reuse =
append(reuse, flnPtr(node, remain)) }`; returns the final `remain` and
`reuse` (`freedLen` is `len(freed)`, unchanged during this loop). -/
def flHarvest (node : FNode) (freedLen : Nat) : Nat → List Nat → Nat × List Nat
  | 0, reuse => (0, reuse)
  | remain + 1, reuse =>
    if reuse.length * FREE_LIST_CAP < freedLen + (remain + 1) then
      flHarvest node freedLen remain (reuse ++ [flnPtr node remain])
    else (remain + 1, reuse)

/-- The `Update` drain loop: `for fl.head != 0 &&
len(reuse)*FREE_LIST_CAP < len(freed)`, recycle the head node's page,
consume `popn` (phase 1 removes whole nodes, phase 2 harvests `reuse` and
moves the leftover pointers into `freed`) and advance the head.  The fuel
bounds the chain length; `none` models a dangling dereference or an
endless (cyclic) chain. -/
def flDrain (s : FStore) : Nat → FlDrainState → Option (FlDrainState × List FEvent)
  | 0, d =>
    if d.head ≠ 0 ∧ d.reuse.length * FREE_LIST_CAP < d.freed.length then none
    else some (d, [])
  | fuel + 1, d =>
    if d.head ≠ 0 ∧ d.reuse.length * FREE_LIST_CAP < d.freed.length then
      match flGet s d.head with
      | none => none
      | some node =>
        let freed1 := d.freed ++ [d.head]
        if node.size ≤ d.popn then
          (flDrain s fuel
            ⟨node.next, d.popn - node.size, freed1, d.reuse, d.total - node.size⟩).map
            (fun r => (r.1, .get d.head :: r.2))
        else
          let hr := flHarvest node freed1.length (node.size - d.popn) d.reuse
          let freed2 := freed1 ++ (List.range hr.1).map (flnPtr node)
          (flDrain s fuel
            ⟨node.next, 0, freed2, hr.2, d.total - node.size⟩).map
            (fun r => (r.1, .get d.head :: r.2))
    else some (d, [])

/-- `flPush(fl, freed, reuse)`: chunk `freed` into nodes of at most
`FREE_LIST_CAP` pointers, house each chunk at a reused pointer (the `use`
callback) while `reuse` lasts and at an appended page (the `new`
callback) afterwards, linking each node to the previous head.  The final
`assert(len(reuse) == 0)` panics — modelled `none` — when pointers are
left over.  The fuel bounds the number of chunks. -/
def flPush (s : FStore) (head : Nat) : Nat → List Nat → List Nat →
    Option (FStore × Nat × List FEvent)
  | _, [], reuse => if reuse = [] then some (s, head, []) else none
  | 0, _ :: _, _ => none
  | fuel + 1, freed, reuse =>
    let size := min freed.length FREE_LIST_CAP
    let node : FNode := ⟨size, 0, head, freed.take size⟩
    let rest := freed.drop size
    match reuse with
    | r :: reuse' =>
      (flPush (fstoreSet s r node) r fuel rest reuse').map
        (fun t => (t.1, t.2.1, .use r :: t.2.2))
    | [] =>
      let pr := fstoreAlloc s node
      (flPush pr.2 pr.1 fuel rest []).map
        (fun t => (t.1, t.2.1, .new pr.1 :: t.2.2))

/-- `Freelist.Update(popn, freed)` over store `s` with head pointer
`head`.  The precondition assert evaluates `fl.Total()` (a `get` of the
head) before anything else; `popn > Total()` panics (`none`); `popn == 0
&& len(freed) == 0` returns immediately; otherwise `total := fl.Total()`
(a second `get`), the drain loop runs, the post-loop assert is checked,
`flPush` prepends the new nodes and `flnSetTotal(fl.get(fl.head), total +
len(freed))` writes the new total through to the final head node. -/
def flUpdate (s : FStore) (head popn : Nat) (freed : List Nat) :
    Option (FStore × Nat × List FEvent) :=
  match flGet s head with
  | none => none
  | some hnode =>
    if hnode.total < popn then none
    else if popn = 0 ∧ freed = [] then some (s, head, [.get head])
    else
      match flDrain s (s.pages.length + 1) ⟨head, popn, freed, [], hnode.total⟩ with
      | none => none
      | some dr =>
        if dr.1.reuse.length * FREE_LIST_CAP < dr.1.freed.length ∧ dr.1.head ≠ 0 then
          none
        else
          match flPush s dr.1.head (dr.1.freed.length + 1) dr.1.freed dr.1.reuse with
          | none => none
          | some pu =>
            match flGet pu.1 pu.2.1 with
            | none => none
            | some fnode =>
              some (fstoreSet pu.1 pu.2.1 { fnode with total := dr.1.total + dr.1.freed.length },
                    pu.2.1,
                    .get head :: .get head :: dr.2 ++ pu.2.2 ++ [.get pu.2.1])

/-- `Total()`: the `total` field read from the head node. -/
def flTotal (s : FStore) (head : Nat) : Option Nat := (flGet s head).map (·.total)

/-- The free-list chain from `head`, following `next` until 0. -/
def flChain (s : FStore) : Nat → Nat → Option (List (Nat × FNode))
  | _, 0 => some []
  | 0, _ + 1 => none
  | fuel + 1, head + 1 =>
    match flGet s (head + 1) with
    | none => none
    | some node => (flChain s fuel node.next).map (fun r => ((head + 1), node) :: r)

/-- The number of pointer entries stored across the chain: the sum of the
nodes' `size` fields. -/
def flEntryCount (ch : List (Nat × FNode)) : Nat := (ch.map (fun e => e.2.size)).sum

/-- The free-list chain as a relation (fuel-free version of `flChain`). -/
inductive FlChainR (s : FStore) : Nat → List (Nat × FNode) → Prop where
  | nil : FlChainR s 0 []
  | cons {head : Nat} {node : FNode} {rest : List (Nat × FNode)} :
      head ≠ 0 → flGet s head = some node → FlChainR s node.next rest →
      FlChainR s head ((head, node) :: rest)

/-- A segment of free-list nodes from `head` down to (not including) the
node at `tail`: the shape `flPush` prepends in front of the old head. -/
inductive FlSegR (s : FStore) : Nat → List (Nat × FNode) → Nat → Prop where
  | nil (h : Nat) : FlSegR s h [] h
  | cons {head : Nat} {node : FNode} {seg : List (Nat × FNode)} {tail : Nat} :
      head ≠ 0 → flGet s head = some node → FlSegR s node.next seg tail →
      FlSegR s head ((head, node) :: seg) tail

/-! ## The dummy-first-key invariant, as a decidable check

Formalization of: "every internal node of the tree has as its first key a
copy of the smallest key in its subtree, and the routing key stored for
each child equals the first key of that child."  A reader of a node sees
the keys at indices `i < nkeys` (junk included when the header key count
exceeds the written entries, as the byte layout does). -/

/-- `a <= b` in the byte-string order. -/
def bytesLe (a b : Bytes) : Bool := bytesCompare a b ≠ .gt

/-- All keys stored in the leaves of the subtree at `nd` (each leaf
contributes its keys at indices `i < nkeys`), `none` on a dangling child
pointer or exhausted fuel. -/
def subtreeKeys : Nat → Pages → BNode → Option (List Bytes)
  | 0, _, _ => none
  | fuel + 1, st, nd =>
    if nd.btype = BNODE_LEAF then
      some ((List.range nd.nkeys).map (fun i => nd.getKey i))
    else
      (List.range nd.nkeys).foldr
        (fun i acc =>
          acc.bind (fun ks =>
            (st.get (nd.getPtr i)).bind (fun c =>
              (subtreeKeys fuel st c).map (fun cs => cs ++ ks)))) (some [])

/-- The least element of a list of byte strings. -/
def minKey (ks : List Bytes) : Option Bytes :=
  match ks with
  | [] => none
  | k :: rest => some (rest.foldl (fun acc x => if bytesLe x acc then x else acc) k)

/-- Check the dummy-first-key invariant at a node: every internal node's
first key is the minimum key of its subtree, and the router key of each
child equals that child's first key (every child pointer present). -/
def checkNode : Nat → Pages → BNode → Bool
  | 0, _, _ => false
  | fuel + 1, st, nd =>
    if nd.btype = BNODE_LEAF then true
    else
      decide (nd.btype = BNODE_NODE) &&
      (match subtreeKeys (fuel + 1) st nd with
       | none => false
       | some ks => decide (minKey ks = some (nd.getKey 0))) &&
      (List.range nd.nkeys).all (fun i =>
        match st.get (nd.getPtr i) with
        | none => false
        | some c => decide (nd.getKey i = c.getKey 0) && checkNode fuel st c)

/-- The invariant at the tree handle (vacuous for the empty tree). -/
def dummyKeyInvariant (ts : TreeState) : Bool :=
  match ts.pages.get ts.root with
  | none => decide (ts.root = 0)
  | some rt => checkNode 10 ts.pages rt

/-! ## Concrete inputs for the claims -/

/-- C1: a root leaf holding the dummy entry, the 21 two-byte keys
`[0, j]` (`j < 21`) and the 249 one-byte keys `[i]` (`1 ≤ i ≤ 249`), all
with empty values — the leaf a `Set` of each of those 270 keys from the
empty store produces.  Its size is 4089 ≤ 4096 bytes. -/
def c1leaf : BNode :=
  ⟨BNODE_LEAF, 271,
    ⟨0, [], []⟩ :: ((List.range 21).map (fun j => ⟨0, [0, j], []⟩) ++
      (List.range 249).map (fun i => ⟨0, [i + 1], []⟩))⟩

/-- C1: the store holding `c1leaf` as the root page. -/
def c1state : TreeState := ⟨1, ⟨2, [(1, c1leaf)]⟩⟩

/-- C1: the key of the failing `Set` (1 byte, sorts after every key in
`c1leaf`). -/
def c1bigKey : Bytes := [250]

/-- C1: the value of the failing `Set` (1355 bytes). -/
def c1bigVal : Bytes := List.replicate 1355 0

/-- C2/C4: a pager state mid-commit: one reused page (3, below
`flushed = 10`) and one appended page (10), `nfree = 1`, `nappend = 1`. -/
def c2state : KVState :=
  ⟨[], ⟨10, 1, 1, [(3, some [7]), (10, some [8])]⟩⟩

/-- C4: the same pager state (separate definition so each claim's
evidence stands alone). -/
def c4state : KVState :=
  ⟨[], ⟨10, 1, 1, [(3, some [7]), (10, some [8])]⟩⟩

/-- C5: a one-entry left leaf. -/
def c5left : BNode := ⟨BNODE_LEAF, 1, [⟨0, [1], [2]⟩]⟩

/-- C5: a one-entry right leaf. -/
def c5right : BNode := ⟨BNODE_LEAF, 1, [⟨0, [3], [4]⟩]⟩

/-- C7: the i-th inserted key: 500 bytes, first byte `i`. -/
def c7key (i : Nat) : Bytes := i :: List.replicate 499 0

/-- C7: the inserted value: 860 bytes. -/
def c7val : Bytes := List.replicate 860 0

/-- C7: insert `c7key 0` and `c7key 1` into the empty tree (both fit in
the root leaf). -/
def c7insPhase : Option TreeState :=
  (Insert 20 emptyTree (c7key 0) c7val).bind
    (fun t => Insert 20 t (c7key 1) c7val)

/-- C7: the node the third insert builds before the root split — the
root leaf with `c7key 2` inserted (`treeInsert`'s output inside
`Insert`, before `nodeSplit3`). -/
def c7overfull : Option BNode :=
  c7insPhase.bind (fun ts =>
    (ts.pages.get ts.root).bind (fun rt =>
      (treeInsert 20 (ts.pages.del ts.root) rt (c7key 2) c7val).map (·.2)))

/-- C8: a free list whose chain is one node holding the single pointer 7
(`total = 1`). -/
def c8store : FStore := ⟨9, [(1, ⟨1, 1, 0, [7]⟩)]⟩

/-- C9: a pager state with two mapped pages, page 1 carrying a `nil`
tombstone in `updates`. -/
def c9state : KVState :=
  ⟨[[[70], [71]]], ⟨2, 0, 0, [(1, none)]⟩⟩

/-- C10: a free list whose chain is one node holding pointers 7 and 8. -/
def c10store : FStore := ⟨9, [(1, ⟨2, 2, 0, [7, 8]⟩)]⟩

/-! # Theorems -/

set_option maxRecDepth 100000

/-- C2: the claim says the persisted page count `flushed` grows by exactly
the number of pages newly appended in the commit, reused pages not
counted.  The code's `syncPages` instead adds the number of all non-nil
images in `updates`: at `c2state` (one appended page, one reused page,
`nappend = 1`) it advances `flushed` by 2, not 1. -/
theorem c2_syncPages_overcounts_flushed :
    (syncPages c2state).page.flushed = c2state.page.flushed + 2 ∧
    c2state.page.nappend = 1 ∧ c2state.page.nfree = 1 := by decide

/-- C3: the claim says a data fsync is issued after the page writes and
before the master-page write, and a second fsync after it.  In
`flushPages` (kv.go, free-list revision) the events are the page writes,
then the master write, then a single fsync: no fsync at all precedes the
master-page write, and only one fsync is issued in total. -/
theorem c3_master_write_before_any_fsync (u : List (Nat × Option Img)) :
    ((flushPagesEvents u).takeWhile (fun e => e != CommitEvent.masterWrite)).count
        CommitEvent.fsync = 0 ∧
    (flushPagesEvents u).count CommitEvent.fsync = 1 := by
  unfold flushPagesEvents writePagesEvents syncPagesEvents
  induction (u.filter (fun e => e.2.isSome)) with
  | nil => simp [List.takeWhile, List.count_cons]
  | cons h t ih => simpa [List.takeWhile, List.count_cons] using ih

/-- C4: the claim says a successful commit clears `updates`, `nfree` and
`nappend`.  `syncPages` replaces `updates` with an empty map but leaves
`nfree` and `nappend` untouched: at `c4state` both still hold 1 after the
commit. -/
theorem c4_nfree_nappend_not_cleared :
    (syncPages c4state).page.updates = [] ∧
    (syncPages c4state).page.nfree = 1 ∧
    (syncPages c4state).page.nappend = 1 := by decide

/-- C5: the claim says `nodeMerge` produces a node with key count
`left.nkeys() + right.nkeys()`.  The code writes `left.nkeys() +
right.btype()` into the header: merging two one-entry leaves (combined
size 36 - 4 bytes, far within one page) yields header key count
1 + 2 = 3 instead of 2, disagreeing with the two entries written. -/
theorem c5_nodeMerge_header_adds_btype :
    c5left.nbytes + c5right.nbytes - HEADER ≤ BTREE_PAGE_SIZE ∧
    (nodeMerge c5left c5right).btype = c5left.btype ∧
    (nodeMerge c5left c5right).entries = c5left.entries ++ c5right.entries ∧
    (nodeMerge c5left c5right).nkeys = 3 ∧
    c5left.nkeys + c5right.nkeys = 2 := by decide

/-- C9 counterexample: the claim says `pageGet` falls back to the mapped
page when `updates[ptr]` holds a nil tombstone.  At `c9state`, page 1 is
tombstoned and mapped to image `[71]`, yet `pageGet` returns the nil node
rather than the mapped image. -/
theorem c9_tombstone_shadows_mapped_page :
    assocFind c9state.page.updates 1 = some none ∧
    pageGetMapped c9state.chunks 1 = some [71] ∧
    pageGet c9state 1 = PageGot.nilNode ∧
    pageGet c9state 1 ≠ PageGot.node [71] := by decide

/-- C9 amended: `pageGet` returns the pending image when `updates[p]`
exists and is non-nil, and resolves through the mmap chunks only when no
entry exists at all; an existing nil tombstone is returned as the nil
node (it does not fall through to the mapped page). -/
theorem c9_pageGet_amended (st : KVState) (ptr : Nat) :
    (∀ img, assocFind st.page.updates ptr = some (some img) →
      pageGet st ptr = .node img) ∧
    (assocFind st.page.updates ptr = some none → pageGet st ptr = .nilNode) ∧
    (assocFind st.page.updates ptr = none →
      ∀ img, pageGetMapped st.chunks ptr = some img → pageGet st ptr = .node img) ∧
    (assocFind st.page.updates ptr = none → pageGetMapped st.chunks ptr = none →
      pageGet st ptr = .badPtr) := by
  refine ⟨fun img h => ?_, fun h => ?_, fun h img hm => ?_, fun h hm => ?_⟩ <;>
    simp [pageGet, h] <;> simp [hm]

/-- C9 witness: the amended theorem applied at `c9state`: the tombstoned
page 1 yields the nil node and the untouched page 0 yields its mapped
image. -/
theorem c9_pageGet_amended_witness :
    pageGet c9state 1 = PageGot.nilNode ∧ pageGet c9state 0 = PageGot.node [70] :=
  ⟨(c9_pageGet_amended c9state 1).2.1 (by decide),
   (c9_pageGet_amended c9state 0).2.2.1 (by decide) [70] (by decide)⟩

/-- C10 counterexample: the claim says `Update(0, [])` returns
immediately without invoking any of the `get`/`new`/`use` callbacks.  The
precondition assert evaluates `fl.Total()`, which is a `get` of the head
node, so the call's callback trace is `[get head]`, not empty. -/
theorem c10_update_noop_invokes_get :
    flUpdate c10store 1 0 [] = some (c10store, 1, [FEvent.get 1]) ∧
    ([FEvent.get 1] : List FEvent) ≠ [] := by decide

/-- C10 amended: `Update(0, [])` is an identity on the store and head —
chain contents and `Total()` unchanged — and invokes no callback except
the single `get` of the head performed by the precondition assert's
`fl.Total()`. -/
theorem c10_update_noop_amended (s : FStore) (head : Nat) (hn : FNode)
    (h : flGet s head = some hn) :
    flUpdate s head 0 [] = some (s, head, [FEvent.get head]) := by
  simp [flUpdate, h]

/-- C10 witness: the amended theorem at `c10store`. -/
theorem c10_update_noop_amended_witness :
    flUpdate c10store 1 0 [] = some (c10store, 1, [FEvent.get 1]) :=
  c10_update_noop_amended c10store 1 ⟨2, 2, 0, [7, 8]⟩ (by decide)

/-- C1: the claim says a successful `Set(k, v)` (key 1..1000 bytes, value
at most 3000 bytes) followed by `Get(k)` in the same process returns
`(v, true)`.  From the root leaf `c1leaf` (a legal, 4089-byte page holding
270 keys with empty values, the state that `Set`ting those keys from the
empty store produces), `Set([250], c1bigVal)` succeeds, but the split
loop's size formula counts the whole old node inside the right page
(`nbytes - getOffset`), overflows at `rightCount = 1`, and `nodeSplit3`
returns the oversized node plus two empty siblings; the subsequent
`Get([250])` descends the empty-key routers into an empty leaf and
returns `([], false)`. -/
theorem c1_set_then_get_misses :
    c1leaf.nbytes ≤ BTREE_PAGE_SIZE ∧
    1 ≤ c1bigKey.length ∧ c1bigKey.length ≤ BTREE_PAGE_MAX_KEY_SIZE ∧
    c1bigVal.length ≤ BTREE_PAGE_MAX_VALUE_SIZE ∧
    (Insert 20 c1state c1bigKey c1bigVal).bind (fun ts => Get 20 ts c1bigKey) =
      some ([], false) := by
  refine ⟨by decide, by decide, by decide, by decide, by decide⟩

/-! ### Supporting lemmas for the split theorem (C6) -/

theorem slice_length (n : BNode) (src cnt : Nat) : (n.slice src cnt).length = cnt := by
  simp [BNode.slice]

/-- C7: the claim quantifies over every Insert/Delete sequence from the
empty tree (keys of 1..1000 bytes, values of at most 3000 bytes).  The
legal three-insert sequence `Insert(c7key i, c7val)` for `i = 0, 1, 2`
(500-byte keys, 860-byte values) crashes the program: the first two
inserts succeed (and the resulting single-leaf tree satisfies the
invariant), the third overflows the root leaf into a node whose
`nodeSplit3` is two-way, and `BTree.Insert`'s root-split loop `for i,
knode := range splitted` walks the whole `[3]BNode` array, so it
reaches the zero third node and panics dereferencing its nil buffer
(modelled `none`).  No resulting tree exists for this sequence, so the
for-all-sequences invariant claim fails. -/
theorem c7_two_way_root_split_panics :
    c7insPhase.isSome = true ∧
    c7insPhase.map dummyKeyInvariant = some true ∧
    c7overfull.map (fun nd => (nodeSplit3 nd).1) = some 2 ∧
    c7insPhase.bind (fun ts => Insert 20 ts (c7key 2) c7val) = none := by
  refine ⟨by decide, by decide, by decide, by decide⟩


/-! ### Free-list `Total()` bookkeeping (C8)

Lemmas about the page store behind the free list's callbacks, the chain
and segment relations, and specifications of `flHarvest`, `flPush` and
the `Update` drain loop, leading to the invariant that a successful
`Update` leaves `Total()` equal to the number of pointer entries stored
across the chain. -/

theorem flGet_set_self (s : FStore) (p : Nat) (n : FNode) :
    flGet (fstoreSet s p n) p = some n := by
  show assocGetF (assocSetF s.pages p n) p = some n
  induction s.pages with
  | nil => simp [assocSetF, assocGetF]
  | cons hd t ih =>
    by_cases he : hd.1 = p
    · simp [assocSetF, he, assocGetF]
    · simp only [assocSetF]
      rw [if_neg he]
      simp only [assocGetF]
      rw [if_neg he]
      exact ih

theorem flGet_set_ne (s : FStore) (p q : Nat) (n : FNode) (h : q ≠ p) :
    flGet (fstoreSet s p n) q = flGet s q := by
  show assocGetF (assocSetF s.pages p n) q = assocGetF s.pages q
  induction s.pages with
  | nil =>
    simp only [assocSetF, assocGetF]
    rw [if_neg (by omega)]
  | cons hd t ih =>
    by_cases he : hd.1 = p
    · simp only [assocSetF]
      rw [if_pos he]
      simp only [assocGetF]
      rw [if_neg (by omega), if_neg (by omega)]
    · simp only [assocSetF]
      rw [if_neg he]
      simp only [assocGetF]
      by_cases hq : hd.1 = q
      · rw [if_pos hq, if_pos hq]
      · rw [if_neg hq, if_neg hq]
        exact ih

theorem flGet_alloc_self (s : FStore) (n : FNode) :
    flGet (fstoreAlloc s n).2 s.next = some n := by
  show assocGetF ((s.next, n) :: s.pages) s.next = some n
  simp [assocGetF]

theorem flGet_alloc_ne (s : FStore) (n : FNode) (q : Nat) (h : q ≠ s.next) :
    flGet (fstoreAlloc s n).2 q = flGet s q := by
  show assocGetF ((s.next, n) :: s.pages) q = assocGetF s.pages q
  simp only [assocGetF]
  rw [if_neg (by omega)]

theorem flGet_mem_keys (s : FStore) (p : Nat) (n : FNode)
    (h : flGet s p = some n) : p ∈ s.pages.map Prod.fst := by
  revert h
  show assocGetF s.pages p = some n → _
  induction s.pages with
  | nil => intro h; simp [assocGetF] at h
  | cons hd t ih =>
    intro h
    simp only [assocGetF] at h
    by_cases he : hd.1 = p
    · simp [he]
    · rw [if_neg he] at h
      simp [ih h]

/-- The free-list chain as a relation (fuel-free version of `flChain`). -/

theorem flChainR_of_flChain (s : FStore) :
    ∀ fuel head ch, flChain s fuel head = some ch → FlChainR s head ch := by
  intro fuel
  induction fuel with
  | zero =>
    intro head ch h
    match head, h with
    | 0, h => cases h; exact .nil
  | succ fuel ih =>
    intro head ch h
    match head, h with
    | 0, h => cases h; exact .nil
    | head + 1, h =>
      simp only [flChain] at h
      cases hg : flGet s (head + 1) with
      | none => rw [hg] at h; exact Option.noConfusion h
      | some node =>
        rw [hg] at h
        have h' : (flChain s fuel node.next).map
            (fun r => ((head + 1, node) :: r)) = some ch := h
        simp only [Option.map_eq_some'] at h'
        obtain ⟨rest, hrest, hch⟩ := h'
        subst hch
        exact .cons (by omega) hg (ih _ _ hrest)

theorem flChain_of_flChainR (s : FStore) :
    ∀ head ch, FlChainR s head ch → ∀ fuel, ch.length ≤ fuel →
      flChain s fuel head = some ch := by
  intro head ch h
  induction h with
  | nil =>
    intro fuel _
    cases fuel with
    | zero => rfl
    | succ fuel => rfl
  | @cons head node rest h0 hget _hch ih =>
    intro fuel hlen
    cases fuel with
    | zero => simp at hlen
    | succ fuel =>
      cases head with
      | zero => exact absurd rfl h0
      | succ m =>
        simp only [flChain, hget]
        rw [ih fuel (by simp only [List.length_cons] at hlen; omega)]
        rfl

theorem flChainR_congr (s s' : FStore) :
    ∀ head ch, FlChainR s head ch →
      (∀ p ∈ ch.map Prod.fst, flGet s' p = flGet s p) → FlChainR s' head ch := by
  intro head ch h
  induction h with
  | nil => intro _; exact .nil
  | @cons head node rest h0 hget _hch ih =>
    intro hag
    refine .cons h0 ?_ (ih (fun p hp => hag p (by simp [hp])))
    rw [hag head (by simp)]
    exact hget

theorem flChainR_keys_subset (s : FStore) :
    ∀ head ch, FlChainR s head ch →
      ∀ p ∈ ch.map Prod.fst, p ∈ s.pages.map Prod.fst := by
  intro head ch h
  induction h with
  | nil => simp
  | @cons head node rest _h0 hget _hch ih =>
    intro p hp
    simp only [List.map_cons, List.mem_cons] at hp
    rcases hp with hp | hp
    · subst hp; exact flGet_mem_keys s p node hget
    · exact ih p hp

theorem flSegR_append_chainR (s : FStore) :
    ∀ head seg tail, FlSegR s head seg tail →
      ∀ ch, FlChainR s tail ch → FlChainR s head (seg ++ ch) := by
  intro head seg tail h
  induction h with
  | nil h => intro ch hch; exact hch
  | cons h0 hget _hseg ih =>
    intro ch hch
    exact .cons h0 hget (ih ch hch)

theorem flSegR_snoc (s : FStore) :
    ∀ head seg tail, FlSegR s head seg tail → tail ≠ 0 →
      ∀ n, flGet s tail = some n →
        FlSegR s head (seg ++ [(tail, n)]) n.next := by
  intro head seg tail h
  induction h with
  | nil h =>
    intro h0 n hget
    exact .cons h0 hget (.nil _)
  | cons h0 hget _hseg ih =>
    intro ht0 n hgetn
    exact .cons h0 hget (ih ht0 n hgetn)

theorem flSegR_head_ne_zero (s : FStore) (h : Nat) (seg : List (Nat × FNode))
    (t : Nat) (hs : FlSegR s h seg t) (hne : seg ≠ []) : h ≠ 0 := by
  cases hs with
  | nil => exact absurd rfl hne
  | cons h0 _ _ => exact h0

theorem fstoreSet_next (s : FStore) (p : Nat) (n : FNode) :
    (fstoreSet s p n).next = s.next := rfl

theorem fstoreAlloc_next (s : FStore) (n : FNode) :
    (fstoreAlloc s n).2.next = s.next + 1 := rfl

theorem flEntryCount_cons (e : Nat × FNode) (t : List (Nat × FNode)) :
    flEntryCount (e :: t) = e.2.size + flEntryCount t := by
  simp [flEntryCount]

theorem flEntryCount_append (a b : List (Nat × FNode)) :
    flEntryCount (a ++ b) = flEntryCount a + flEntryCount b := by
  simp [flEntryCount]

theorem range_map_getD_eq_take (l : List Nat) :
    ∀ n, n ≤ l.length → (List.range n).map (fun i => l.getD i 0) = l.take n := by
  intro n
  induction n with
  | zero => intro _; simp
  | succ n ih =>
    intro hn
    rw [List.range_succ, List.map_append, ih (by omega)]
    have hlt : n < l.length := by omega
    rw [List.take_succ]
    simp [List.getD, List.getElem?_eq_getElem hlt]

theorem flHarvest_spec (node : FNode) (flen : Nat) :
    ∀ remain reuse, remain ≤ node.ptrs.length →
      ∃ rr, rr ≤ remain ∧
        flHarvest node flen remain reuse =
          (rr, reuse ++ ((node.ptrs.take remain).drop rr).reverse) := by
  intro remain
  induction remain with
  | zero =>
    intro reuse _
    exact ⟨0, le_refl 0, by simp [flHarvest]⟩
  | succ remain ih =>
    intro reuse hle
    simp only [flHarvest]
    by_cases hc : reuse.length * FREE_LIST_CAP < flen + (remain + 1)
    · rw [if_pos hc]
      obtain ⟨rr, hrr, heq⟩ := ih (reuse ++ [flnPtr node remain]) (by omega)
      refine ⟨rr, by omega, ?_⟩
      rw [heq]
      have hptr : flnPtr node remain = node.ptrs.get ⟨remain, by omega⟩ := by
        simp [flnPtr, List.getD, List.getElem?_eq_getElem (show remain < node.ptrs.length by omega)]
      have htk : node.ptrs.take (remain + 1) = node.ptrs.take remain ++ [flnPtr node remain] := by
        rw [List.take_succ]
        simp [hptr, List.getElem?_eq_getElem (show remain < node.ptrs.length by omega)]
      rw [htk, List.drop_append_of_le_length (by simp; omega), List.reverse_append]
      simp
    · rw [if_neg hc]
      exact ⟨remain + 1, le_refl _, by simp⟩

theorem flPush_spec :
    ∀ fuel s head freed reuse s' head' tr,
      flPush s head fuel freed reuse = some (s', head', tr) →
      1 ≤ s.next →
      reuse.Nodup →
      (∀ r ∈ reuse, r ≠ 0 ∧ r < s.next) →
      ∃ seg,
        FlSegR s' head' seg head ∧
        flEntryCount seg = freed.length ∧
        (seg.map Prod.fst).Nodup ∧
        (∀ k ∈ seg.map Prod.fst, k ∈ reuse ∨ (s.next ≤ k ∧ k < s'.next)) ∧
        s.next ≤ s'.next ∧
        (∀ q, q ∉ reuse → q < s.next → flGet s' q = flGet s q) ∧
        (freed = [] → s' = s ∧ head' = head ∧ seg = []) ∧
        (freed ≠ [] → seg ≠ []) := by
  intro fuel
  induction fuel with
  | zero =>
    intro s head freed reuse s' head' tr h _hn _hnd _hb
    match freed, h with
    | [], h =>
      rw [show flPush s head 0 [] reuse =
          (if reuse = [] then some (s, head, []) else none) from rfl] at h
      by_cases hr : reuse = []
      · rw [if_pos hr] at h
        obtain ⟨rfl, rfl, rfl⟩ : s = s' ∧ head = head' ∧ [] = tr := by
          cases h; exact ⟨rfl, rfl, rfl⟩
        refine ⟨[], .nil _, rfl, by simp, by simp, le_refl _, fun q _ _ => rfl,
          fun _ => ⟨rfl, rfl, rfl⟩, fun hc => absurd rfl hc⟩
      · rw [if_neg hr] at h
        exact Option.noConfusion h
    | f :: fs, h => exact Option.noConfusion h
  | succ fuel ih =>
    intro s head freed reuse s' head' tr h hn hnd hb
    match freed, h with
    | [], h =>
      rw [show flPush s head (fuel + 1) [] reuse =
          (if reuse = [] then some (s, head, []) else none) from rfl] at h
      by_cases hr : reuse = []
      · rw [if_pos hr] at h
        obtain ⟨rfl, rfl, rfl⟩ : s = s' ∧ head = head' ∧ [] = tr := by
          cases h; exact ⟨rfl, rfl, rfl⟩
        refine ⟨[], .nil _, rfl, by simp, by simp, le_refl _, fun q _ _ => rfl,
          fun _ => ⟨rfl, rfl, rfl⟩, fun hc => absurd rfl hc⟩
      · rw [if_neg hr] at h
        exact Option.noConfusion h
    | f :: fs, h =>
      match reuse, hnd, hb, h with
      | r :: reuse', hnd, hb, h =>
        rw [show flPush s head (fuel + 1) (f :: fs) (r :: reuse') =
            (flPush (fstoreSet s r
                ⟨min (f :: fs).length FREE_LIST_CAP, 0, head,
                  (f :: fs).take (min (f :: fs).length FREE_LIST_CAP)⟩) r fuel
              ((f :: fs).drop (min (f :: fs).length FREE_LIST_CAP)) reuse').map
              (fun t => (t.1, t.2.1, FEvent.use r :: t.2.2)) from rfl] at h
        simp only [Option.map_eq_some'] at h
        obtain ⟨t, hrec, hout⟩ := h
        obtain ⟨rfl, rfl, rfl⟩ : t.1 = s' ∧ t.2.1 = head' ∧
            FEvent.use r :: t.2.2 = tr := by
          cases hout; exact ⟨rfl, rfl, rfl⟩
        have hr0 : r ≠ 0 := (hb r (by simp)).1
        have hrlt : r < s.next := (hb r (by simp)).2
        have hrnotin : r ∉ reuse' := (List.nodup_cons.mp hnd).1
        obtain ⟨seg', hseg, hcnt, hnodup, hkeys, hnext, hframe, _hnil, _hne⟩ :=
          ih (fstoreSet s r _) r _ reuse' t.1 t.2.1 t.2.2
            (by rw [← hrec]) hn (List.nodup_cons.mp hnd).2
            (fun x hx => hb x (by simp [hx]))
        have hgetr : flGet t.1 r = some
            ⟨min (f :: fs).length FREE_LIST_CAP, 0, head,
              (f :: fs).take (min (f :: fs).length FREE_LIST_CAP)⟩ := by
          rw [hframe r hrnotin (by rw [fstoreSet_next]; exact hrlt)]
          exact flGet_set_self s r _
        refine ⟨seg' ++ [(r, _)], flSegR_snoc t.1 _ _ _ hseg hr0 _ hgetr, ?_, ?_, ?_, ?_, ?_, ?_, ?_⟩
        · rw [flEntryCount_append, flEntryCount_cons, hcnt]
          simp only [flEntryCount, List.map_nil, List.sum_nil]
          have : min (f :: fs).length FREE_LIST_CAP ≤ (f :: fs).length :=
            min_le_left _ _
          simp only [List.length_drop]
          omega
        · simp only [List.map_append, List.map_cons, List.map_nil]
          rw [List.nodup_append]
          refine ⟨hnodup, List.nodup_singleton r, ?_⟩
          intro k hk hk1
          simp only [List.mem_singleton] at hk1
          subst hk1
          rcases hkeys k hk with hin | ⟨hge, _⟩
          · exact hrnotin hin
          · rw [fstoreSet_next] at hge; omega
        · intro k hk
          simp only [List.map_append, List.map_cons, List.map_nil,
            List.mem_append, List.mem_singleton] at hk
          rcases hk with hk | hk
          · rcases hkeys k hk with hin | ⟨hge, hlt⟩
            · exact Or.inl (by simp [hin])
            · rw [fstoreSet_next] at hge; exact Or.inr ⟨hge, hlt⟩
          · subst hk; exact Or.inl (by simp)
        · rw [fstoreSet_next] at hnext; exact hnext
        · intro q hq hqlt
          have hqr : q ≠ r := fun hc => hq (by simp [hc])
          have hq' : q ∉ reuse' := fun hc => hq (by simp [hc])
          rw [hframe q hq' (by rw [fstoreSet_next]; exact hqlt)]
          exact flGet_set_ne s r q _ hqr
        · intro hc; exact List.noConfusion hc
        · intro _; simp
      | [], _hnd, _hb, h =>
        rw [show flPush s head (fuel + 1) (f :: fs) [] =
            (flPush (fstoreAlloc s
                ⟨min (f :: fs).length FREE_LIST_CAP, 0, head,
                  (f :: fs).take (min (f :: fs).length FREE_LIST_CAP)⟩).2
              (fstoreAlloc s
                ⟨min (f :: fs).length FREE_LIST_CAP, 0, head,
                  (f :: fs).take (min (f :: fs).length FREE_LIST_CAP)⟩).1 fuel
              ((f :: fs).drop (min (f :: fs).length FREE_LIST_CAP)) []).map
              (fun t => (t.1, t.2.1, FEvent.new (fstoreAlloc s
                ⟨min (f :: fs).length FREE_LIST_CAP, 0, head,
                  (f :: fs).take (min (f :: fs).length FREE_LIST_CAP)⟩).1 :: t.2.2)) from rfl] at h
        simp only [Option.map_eq_some'] at h
        obtain ⟨t, hrec, hout⟩ := h
        obtain ⟨rfl, rfl, rfl⟩ : t.1 = s' ∧ t.2.1 = head' ∧
            FEvent.new s.next :: t.2.2 = tr := by
          cases hout; exact ⟨rfl, rfl, rfl⟩
        obtain ⟨seg', hseg, hcnt, hnodup, hkeys, hnext, hframe, _hnil, _hne⟩ :=
          ih (fstoreAlloc s _).2 (fstoreAlloc s _).1 _ [] t.1 t.2.1 t.2.2
            (by rw [← hrec]) (by show 1 ≤ s.next + 1; omega) List.nodup_nil
            (by intro x hx; exact absurd hx (List.not_mem_nil x))
        have hgetr : flGet t.1 s.next = some
            ⟨min (f :: fs).length FREE_LIST_CAP, 0, head,
              (f :: fs).take (min (f :: fs).length FREE_LIST_CAP)⟩ := by
          rw [hframe s.next (List.not_mem_nil _) (by show s.next < s.next + 1; omega)]
          exact flGet_alloc_self s _
        have hsn0 : s.next ≠ 0 := by omega
        refine ⟨seg' ++ [(s.next, _)],
          flSegR_snoc t.1 _ _ _ hseg hsn0 _ hgetr, ?_, ?_, ?_, ?_, ?_, ?_, ?_⟩
        · rw [flEntryCount_append, flEntryCount_cons, hcnt]
          simp only [flEntryCount, List.map_nil, List.sum_nil]
          have : min (f :: fs).length FREE_LIST_CAP ≤ (f :: fs).length :=
            min_le_left _ _
          simp only [List.length_drop]
          omega
        · simp only [List.map_append, List.map_cons, List.map_nil]
          rw [List.nodup_append]
          refine ⟨hnodup, List.nodup_singleton _, ?_⟩
          intro k hk hk1
          simp only [List.mem_singleton] at hk1
          subst hk1
          rcases hkeys _ hk with hin | ⟨hge, _⟩
          · exact absurd hin (List.not_mem_nil _)
          · rw [fstoreAlloc_next] at hge; omega
        · intro k hk
          simp only [List.map_append, List.map_cons, List.map_nil,
            List.mem_append, List.mem_singleton] at hk
          rcases hk with hk | hk
          · rcases hkeys k hk with hin | ⟨hge, hlt⟩
            · exact absurd hin (List.not_mem_nil k)
            · rw [fstoreAlloc_next] at hge
              exact Or.inr ⟨by omega, hlt⟩
          · subst hk
            refine Or.inr ⟨le_refl _, ?_⟩
            rw [fstoreAlloc_next] at hnext
            omega
        · rw [fstoreAlloc_next] at hnext
          omega
        · intro q _hq hqlt
          rw [hframe q (List.not_mem_nil q) (by show q < s.next + 1; omega)]
          exact flGet_alloc_ne s _ q (by omega)
        · intro hc; exact List.noConfusion hc
        · intro _; simp

theorem flDrain_zero (s : FStore) (d : FlDrainState) :
    flDrain s 0 d =
      (if d.head ≠ 0 ∧ d.reuse.length * FREE_LIST_CAP < d.freed.length then none
       else some (d, [])) := rfl

theorem flDrain_succ (s : FStore) (fuel : Nat) (d : FlDrainState) :
    flDrain s (fuel + 1) d =
      (if d.head ≠ 0 ∧ d.reuse.length * FREE_LIST_CAP < d.freed.length then
        match flGet s d.head with
        | none => none
        | some node =>
          if node.size ≤ d.popn then
            (flDrain s fuel
              ⟨node.next, d.popn - node.size, d.freed ++ [d.head], d.reuse,
                d.total - node.size⟩).map
              (fun r => (r.1, FEvent.get d.head :: r.2))
          else
            (flDrain s fuel
              ⟨node.next, 0,
                (d.freed ++ [d.head]) ++
                  (List.range (flHarvest node (d.freed ++ [d.head]).length
                    (node.size - d.popn) d.reuse).1).map (flnPtr node),
                (flHarvest node (d.freed ++ [d.head]).length
                  (node.size - d.popn) d.reuse).2,
                d.total - node.size⟩).map
              (fun r => (r.1, FEvent.get d.head :: r.2))
       else some (d, [])) := rfl

theorem flChainR_inv_pos (s : FStore) (head : Nat) (ch : List (Nat × FNode))
    (h : FlChainR s head ch) (h0 : head ≠ 0) :
    ∃ node rest, ch = (head, node) :: rest ∧ flGet s head = some node ∧
      FlChainR s node.next rest := by
  cases h with
  | nil => exact absurd rfl h0
  | cons h0' hget hch => exact ⟨_, _, rfl, hget, hch⟩

theorem flDrain_spec (s : FStore) :
    ∀ fuel d dr tr ch,
      flDrain s fuel d = some (dr, tr) →
      FlChainR s d.head ch →
      (∀ e ∈ ch, e.2.size = e.2.ptrs.length) →
      (∀ e ∈ ch, e.1 < s.next ∧ ∀ p ∈ e.2.ptrs, p ≠ 0 ∧ p < s.next) →
      ((ch.map Prod.fst) ++ (ch.map (fun e => e.2.ptrs)).flatten).Nodup →
      d.total = flEntryCount ch →
      (∀ p ∈ d.freed, p ≠ 0 ∧ p < s.next) →
      d.reuse.Nodup →
      (∀ p ∈ d.reuse, p ≠ 0 ∧ p < s.next ∧ p ∉ ch.map Prod.fst ∧
        p ∉ (ch.map (fun e => e.2.ptrs)).flatten) →
      ∃ ch',
        ch' <:+ ch ∧
        FlChainR s dr.head ch' ∧
        dr.total = flEntryCount ch' ∧
        (∀ p ∈ dr.freed, p ≠ 0 ∧ p < s.next) ∧
        dr.reuse.Nodup ∧
        (∀ p ∈ dr.reuse, p ≠ 0 ∧ p < s.next ∧ p ∉ ch'.map Prod.fst) ∧
        (∃ add, dr.freed = d.freed ++ add) ∧
        (dr.freed = [] → dr = d) := by
  intro fuel
  induction fuel with
  | zero =>
    intro d dr tr ch h hch hsz hbd hnd htot hfr hrnd hru
    rw [flDrain_zero] at h
    by_cases hcond : d.head ≠ 0 ∧ d.reuse.length * FREE_LIST_CAP < d.freed.length
    · rw [if_pos hcond] at h; exact Option.noConfusion h
    · rw [if_neg hcond] at h
      obtain ⟨rfl, rfl⟩ : d = dr ∧ ([] : List FEvent) = tr := by
        cases h; exact ⟨rfl, rfl⟩
      exact ⟨ch, List.suffix_refl ch, hch, htot, hfr, hrnd,
        fun p hp => ⟨(hru p hp).1, (hru p hp).2.1, (hru p hp).2.2.1⟩,
        ⟨[], by simp⟩, fun _ => rfl⟩
  | succ fuel ih =>
    intro d dr tr ch h hch hsz hbd hnd htot hfr hrnd hru
    rw [flDrain_succ] at h
    by_cases hcond : d.head ≠ 0 ∧ d.reuse.length * FREE_LIST_CAP < d.freed.length
    · rw [if_pos hcond] at h
      obtain ⟨node, rest, hcheq, hget, hrest⟩ :=
        flChainR_inv_pos s d.head ch hch hcond.1
      subst hcheq
      rw [hget] at h
      have h2 : (if node.size ≤ d.popn then
          (flDrain s fuel
            ⟨node.next, d.popn - node.size, d.freed ++ [d.head], d.reuse,
              d.total - node.size⟩).map
            (fun r => (r.1, FEvent.get d.head :: r.2))
        else
          (flDrain s fuel
            ⟨node.next, 0,
              (d.freed ++ [d.head]) ++
                (List.range (flHarvest node (d.freed ++ [d.head]).length
                  (node.size - d.popn) d.reuse).1).map (flnPtr node),
              (flHarvest node (d.freed ++ [d.head]).length
                (node.size - d.popn) d.reuse).2,
              d.total - node.size⟩).map
            (fun r => (r.1, FEvent.get d.head :: r.2))) = some (dr, tr) := h
      clear h
      have hszh : node.size = node.ptrs.length := hsz (d.head, node) (by simp)
      have hheadlt : d.head < s.next := (hbd (d.head, node) (by simp)).1
      have hptrbd : ∀ p ∈ node.ptrs, p ≠ 0 ∧ p < s.next :=
        (hbd (d.head, node) (by simp)).2
      have hndL : (d.head :: (rest.map Prod.fst ++
          (node.ptrs ++ (rest.map (fun e => e.2.ptrs)).flatten))).Nodup := by
        have heq : ((d.head, node) :: rest).map Prod.fst ++
            (((d.head, node) :: rest).map (fun e => e.2.ptrs)).flatten =
            d.head :: (rest.map Prod.fst ++
              (node.ptrs ++ (rest.map (fun e => e.2.ptrs)).flatten)) := by simp
        rwa [heq] at hnd
      have hndInner : (rest.map Prod.fst ++
          (node.ptrs ++ (rest.map (fun e => e.2.ptrs)).flatten)).Nodup :=
        hndL.of_cons
      have hndRest : (rest.map Prod.fst ++
          (rest.map (fun e => e.2.ptrs)).flatten).Nodup :=
        hndInner.sublist (List.Sublist.append_left
          (List.sublist_append_right node.ptrs _) _)
      have hndRestCh : ((rest.map Prod.fst) ++
          (rest.map (fun e => e.2.ptrs)).flatten).Nodup := hndRest
      have hdisjKF : (rest.map Prod.fst).Disjoint
          (node.ptrs ++ (rest.map (fun e => e.2.ptrs)).flatten) :=
        List.disjoint_of_nodup_append hndInner
      have hndPF : (node.ptrs ++ (rest.map (fun e => e.2.ptrs)).flatten).Nodup :=
        hndInner.sublist (List.sublist_append_right _ _)
      have hdisjPF : node.ptrs.Disjoint
          ((rest.map (fun e => e.2.ptrs)).flatten) :=
        List.disjoint_of_nodup_append hndPF
      have hndP : node.ptrs.Nodup :=
        hndPF.sublist (List.sublist_append_left _ _)
      have htotc : d.total = node.size + flEntryCount rest := by
        rw [htot, flEntryCount_cons]
      by_cases hph : node.size ≤ d.popn
      · rw [if_pos hph] at h2
        simp only [Option.map_eq_some'] at h2
        obtain ⟨r, hrec, hout⟩ := h2
        obtain ⟨rfl, rfl⟩ : r.1 = dr ∧ FEvent.get d.head :: r.2 = tr := by
          cases hout; exact ⟨rfl, rfl⟩
        obtain ⟨ch', hsuf, hchain, htot', hfr', hrnd', hru', ⟨add, hadd⟩, _hnil⟩ :=
          ih _ r.1 r.2 rest hrec hrest
            (fun e he => hsz e (by simp [he]))
            (fun e he => hbd e (by simp [he]))
            hndRestCh
            (by show d.total - node.size = flEntryCount rest; omega)
            (by intro p hp
                rcases List.mem_append.mp hp with hp | hp
                · exact hfr p hp
                · simp only [List.mem_singleton] at hp
                  subst hp
                  exact ⟨hcond.1, hheadlt⟩)
            hrnd
            (by intro p hp
                obtain ⟨h1, h2, h3, h4⟩ := hru p hp
                refine ⟨h1, h2, ?_, ?_⟩
                · intro hc; exact h3 (by simp [hc])
                · intro hc
                  exact h4 (show p ∈ node.ptrs ++
                    (rest.map (fun e => e.2.ptrs)).flatten from
                    List.mem_append_right _ hc))
        refine ⟨ch', hsuf.trans (List.suffix_cons _ _), hchain, htot', hfr',
          hrnd', hru', ⟨[d.head] ++ add, by rw [hadd]; simp⟩, ?_⟩
        intro hc
        rw [hadd] at hc
        simp at hc
      · rw [if_neg hph] at h2
        have hrem : node.size - d.popn ≤ node.ptrs.length := by omega
        obtain ⟨rr, hrrle, hheq⟩ :=
          flHarvest_spec node (d.freed ++ [d.head]).length
            (node.size - d.popn) d.reuse hrem
        rw [hheq] at h2
        have hmap : (List.range rr).map (flnPtr node) = node.ptrs.take rr := by
          rw [show flnPtr node = (fun i => node.ptrs.getD i 0) from rfl]
          exact range_map_getD_eq_take node.ptrs rr (by omega)
        have h3 : (flDrain s fuel
            ⟨node.next, 0,
              (d.freed ++ [d.head]) ++ (List.range rr).map (flnPtr node),
              d.reuse ++ ((node.ptrs.take (node.size - d.popn)).drop rr).reverse,
              d.total - node.size⟩).map
            (fun r => (r.1, FEvent.get d.head :: r.2)) = some (dr, tr) := h2
        clear h2
        rw [hmap] at h3
        simp only [Option.map_eq_some'] at h3
        obtain ⟨r, hrec, hout⟩ := h3
        obtain ⟨rfl, rfl⟩ : r.1 = dr ∧ FEvent.get d.head :: r.2 = tr := by
          cases hout; exact ⟨rfl, rfl⟩
        have hharvsub : List.Sublist
            ((node.ptrs.take (node.size - d.popn)).drop rr) node.ptrs :=
          (List.drop_sublist _ _).trans (List.take_sublist _ _)
        have hharvmem : ∀ p ∈ ((node.ptrs.take (node.size - d.popn)).drop rr).reverse,
            p ∈ node.ptrs := fun p hp => hharvsub.subset (List.mem_reverse.mp hp)
        obtain ⟨ch', hsuf, hchain, htot', hfr', hrnd', hru', ⟨add, hadd⟩, _hnil⟩ :=
          ih _ r.1 r.2 rest hrec hrest
            (fun e he => hsz e (by simp [he]))
            (fun e he => hbd e (by simp [he]))
            hndRestCh
            (by show d.total - node.size = flEntryCount rest; omega)
            (by intro p hp
                rcases List.mem_append.mp hp with hp | hp
                · rcases List.mem_append.mp hp with hp | hp
                  · exact hfr p hp
                  · simp only [List.mem_singleton] at hp
                    subst hp
                    exact ⟨hcond.1, hheadlt⟩
                · exact hptrbd p ((List.take_sublist _ _).subset hp))
            (by refine List.Nodup.append hrnd
                  (List.nodup_reverse.mpr (hndP.sublist hharvsub)) ?_
                intro p hp hq
                exact (hru p hp).2.2.2 (show p ∈ node.ptrs ++
                  (rest.map (fun e => e.2.ptrs)).flatten from
                  List.mem_append_left _ (hharvmem p hq)))
            (by intro p hp
                rcases List.mem_append.mp hp with hp | hp
                · obtain ⟨h1, h2, h3, h4⟩ := hru p hp
                  refine ⟨h1, h2, ?_, ?_⟩
                  · intro hc; exact h3 (by simp [hc])
                  · intro hc
                    exact h4 (show p ∈ node.ptrs ++
                      (rest.map (fun e => e.2.ptrs)).flatten from
                      List.mem_append_right _ hc)
                · have hpp : p ∈ node.ptrs := hharvmem p hp
                  refine ⟨(hptrbd p hpp).1, (hptrbd p hpp).2, ?_, ?_⟩
                  · intro hc
                    exact hdisjKF hc (List.mem_append_left _ hpp)
                  · intro hc
                    exact hdisjPF hpp hc)
        refine ⟨ch', hsuf.trans (List.suffix_cons _ _), hchain, htot', hfr',
          hrnd', hru', ⟨[d.head] ++ node.ptrs.take rr ++ add, by rw [hadd]; simp⟩, ?_⟩
        intro hc
        rw [hadd] at hc
        simp at hc
    · rw [if_neg hcond] at h
      obtain ⟨rfl, rfl⟩ : d = dr ∧ ([] : List FEvent) = tr := by
        cases h; exact ⟨rfl, rfl⟩
      exact ⟨ch, List.suffix_refl ch, hch, htot, hfr, hrnd,
        fun p hp => ⟨(hru p hp).1, (hru p hp).2.1, (hru p hp).2.2.1⟩,
        ⟨[], by simp⟩, fun _ => rfl⟩

/-- C8 counterexample: the claim says that after `Update(popn, freed)`
the `popn` popped pointers are no longer counted as reusable.  With
`freed` empty the drain loop's guard `len(reuse)*FREE_LIST_CAP <
len(freed)` is false from the start, so `Update(1, [])` on a one-node
list holding pointer 7 removes nothing: the store, the head and
`Total()` are unchanged and pointer 7 is still in the chain and still
counted. -/
theorem c8_pop_without_freed_leaves_pointers :
    flUpdate ⟨9, [(1, ⟨1, 1, 0, [7]⟩)]⟩ 1 1 [] =
      some (⟨9, [(1, ⟨1, 1, 0, [7]⟩)]⟩, 1,
        [FEvent.get 1, FEvent.get 1, FEvent.get 1]) ∧
    flTotal ⟨9, [(1, ⟨1, 1, 0, [7]⟩)]⟩ 1 = some 1 ∧
    flChain ⟨9, [(1, ⟨1, 1, 0, [7]⟩)]⟩ 2 1 = some [(1, ⟨1, 1, 0, [7]⟩)] := by
  decide

/-- C8 amended: on a well-formed free list — a chain from a nonzero head
whose node sizes match the stored pointer counts, whose page numbers and
pointers are nonzero, below the next fresh page and mutually distinct,
and whose head `total` equals the chain's entry count — any successful
`Update(popn, freed)` (with `freed` pointers fresh) again leaves
`Total()` equal to the number of pointer entries stored across the
resulting chain. -/
theorem c8_update_total_eq_entry_count
    (s : FStore) (head popn : Nat) (freed : List Nat) (ch : List (Nat × FNode))
    (s' : FStore) (head' : Nat) (tr : List FEvent)
    (hch : flChain s (s.pages.length + 1) head = some ch)
    (hhead : head ≠ 0)
    (hnext : 1 ≤ s.next)
    (hsz : ∀ e ∈ ch, e.2.size = e.2.ptrs.length)
    (hbd : ∀ e ∈ ch, e.1 < s.next ∧ ∀ p ∈ e.2.ptrs, p ≠ 0 ∧ p < s.next)
    (hnd : ((ch.map Prod.fst) ++ (ch.map (fun e => e.2.ptrs)).flatten).Nodup)
    (htot : flTotal s head = some (flEntryCount ch))
    (hfreed : ∀ p ∈ freed, p ≠ 0 ∧ p < s.next)
    (hupd : flUpdate s head popn freed = some (s', head', tr)) :
    ∃ ch', flChain s' (s'.pages.length + 1) head' = some ch' ∧
      flTotal s' head' = some (flEntryCount ch') := by
  have chainR := flChainR_of_flChain s _ head ch hch
  obtain ⟨hnode, rest, hcheq, hget, hrest⟩ := flChainR_inv_pos s head ch chainR hhead
  have htotv : hnode.total = flEntryCount ch := by
    simp only [flTotal] at htot
    rw [hget] at htot
    exact Option.some.inj htot
  have hchknd : (ch.map Prod.fst).Nodup := hnd.sublist (List.sublist_append_left _ _)
  simp only [flUpdate] at hupd
  rw [hget] at hupd
  have h1 : (if hnode.total < popn then none
      else if popn = 0 ∧ freed = [] then some (s, head, [FEvent.get head])
      else
        match flDrain s (s.pages.length + 1) ⟨head, popn, freed, [], hnode.total⟩ with
        | none => none
        | some q =>
          if q.1.reuse.length * FREE_LIST_CAP < q.1.freed.length ∧ q.1.head ≠ 0 then
            none
          else
            match flPush s q.1.head (q.1.freed.length + 1) q.1.freed q.1.reuse with
            | none => none
            | some pu =>
              match flGet pu.1 pu.2.1 with
              | none => none
              | some fnode =>
                some (fstoreSet pu.1 pu.2.1
                    { fnode with total := q.1.total + q.1.freed.length },
                  pu.2.1,
                  FEvent.get head :: FEvent.get head ::
                    q.2 ++ pu.2.2 ++ [FEvent.get pu.2.1])) = some (s', head', tr) :=
    hupd
  clear hupd
  by_cases htlt : hnode.total < popn
  · rw [if_pos htlt] at h1
    exact Option.noConfusion h1
  rw [if_neg htlt] at h1
  by_cases hz : popn = 0 ∧ freed = []
  · rw [if_pos hz] at h1
    obtain ⟨rfl, rfl, rfl⟩ : s = s' ∧ head = head' ∧ [FEvent.get head] = tr := by
      cases h1; exact ⟨rfl, rfl, rfl⟩
    exact ⟨ch, hch, htot⟩
  rw [if_neg hz] at h1
  cases hdrm : flDrain s (s.pages.length + 1) ⟨head, popn, freed, [], hnode.total⟩ with
  | none => rw [hdrm] at h1; exact Option.noConfusion h1
  | some q =>
    rw [hdrm] at h1
    have h2 : (if q.1.reuse.length * FREE_LIST_CAP < q.1.freed.length ∧
          q.1.head ≠ 0 then none
        else
          match flPush s q.1.head (q.1.freed.length + 1) q.1.freed q.1.reuse with
          | none => none
          | some pu =>
            match flGet pu.1 pu.2.1 with
            | none => none
            | some fnode =>
              some (fstoreSet pu.1 pu.2.1
                  { fnode with total := q.1.total + q.1.freed.length },
                pu.2.1,
                FEvent.get head :: FEvent.get head ::
                  q.2 ++ pu.2.2 ++ [FEvent.get pu.2.1])) = some (s', head', tr) := h1
    clear h1
    obtain ⟨ch', hsuf, hchain, htotdr, hfrbd, hrnddr, hrudr, ⟨add, hadd⟩, hnilcase⟩ :=
      flDrain_spec s (s.pages.length + 1) ⟨head, popn, freed, [], hnode.total⟩
        q.1 q.2 ch hdrm chainR hsz hbd hnd
        (by show hnode.total = flEntryCount ch; exact htotv)
        hfreed List.nodup_nil
        (by intro p hp; exact absurd hp (List.not_mem_nil p))
    by_cases hassert : q.1.reuse.length * FREE_LIST_CAP < q.1.freed.length ∧
        q.1.head ≠ 0
    · rw [if_pos hassert] at h2
      exact Option.noConfusion h2
    rw [if_neg hassert] at h2
    cases hpum : flPush s q.1.head (q.1.freed.length + 1) q.1.freed q.1.reuse with
    | none => rw [hpum] at h2; exact Option.noConfusion h2
    | some pu =>
      rw [hpum] at h2
      have h3 : (match flGet pu.1 pu.2.1 with
          | none => none
          | some fnode =>
            some (fstoreSet pu.1 pu.2.1
                { fnode with total := q.1.total + q.1.freed.length },
              pu.2.1,
              FEvent.get head :: FEvent.get head ::
                q.2 ++ pu.2.2 ++ [FEvent.get pu.2.1])) = some (s', head', tr) := h2
      clear h2
      obtain ⟨seg, hseg, hsegcnt, hsegnd, hsegkeys, hsnext, hframe, hpnil, hpne⟩ :=
        flPush_spec (q.1.freed.length + 1) s q.1.head q.1.freed q.1.reuse
          pu.1 pu.2.1 pu.2.2 hpum hnext hrnddr
          (fun r hr => ⟨(hrudr r hr).1, (hrudr r hr).2.1⟩)
      have hchain' : FlChainR pu.1 q.1.head ch' := by
        refine flChainR_congr s pu.1 _ _ hchain ?_
        intro p hp
        obtain ⟨e, he, rfl⟩ := List.mem_map.mp hp
        refine hframe e.1 ?_ (hbd e (hsuf.sublist.subset he)).1
        intro hc
        exact (hrudr e.1 hc).2.2 (List.mem_map.mpr ⟨e, he, rfl⟩)
      have hfull : FlChainR pu.1 pu.2.1 (seg ++ ch') :=
        flSegR_append_chainR pu.1 _ _ _ hseg _ hchain'
      have hne0 : pu.2.1 ≠ 0 := by
        by_cases hfn0 : q.1.freed = []
        · have hdd := hnilcase hfn0
          have hph : q.1.head = head := by rw [hdd]
          rw [(hpnil hfn0).2.1, hph]
          exact hhead
        · exact flSegR_head_ne_zero pu.1 _ _ _ hseg (hpne hfn0)
      obtain ⟨fn1, tail1, hfeq, hfget, hftail⟩ :=
        flChainR_inv_pos pu.1 pu.2.1 (seg ++ ch') hfull hne0
      cases hfnm : flGet pu.1 pu.2.1 with
      | none => rw [hfnm] at h3; exact Option.noConfusion h3
      | some fnode =>
        rw [hfnm] at h3
        obtain rfl : fn1 = fnode := by
          have := hfget.symm.trans hfnm
          exact Option.some.inj this
        have h4 : some (fstoreSet pu.1 pu.2.1
              { fn1 with total := q.1.total + q.1.freed.length },
            pu.2.1,
            FEvent.get head :: FEvent.get head ::
              q.2 ++ pu.2.2 ++ [FEvent.get pu.2.1]) = some (s', head', tr) := h3
        clear h3
        obtain ⟨rfl, rfl, rfl⟩ : fstoreSet pu.1 pu.2.1
              { fn1 with total := q.1.total + q.1.freed.length } = s' ∧
            pu.2.1 = head' ∧
            FEvent.get head :: FEvent.get head ::
              q.2 ++ pu.2.2 ++ [FEvent.get pu.2.1] = tr := by
          cases h4; exact ⟨rfl, rfl, rfl⟩
        -- keys of the pushed chain are nodup
        have hch'knd : (ch'.map Prod.fst).Nodup :=
          hchknd.sublist (hsuf.sublist.map Prod.fst)
        have hkeysnd : ((seg ++ ch').map Prod.fst).Nodup := by
          rw [List.map_append]
          refine List.Nodup.append hsegnd hch'knd ?_
          intro k hk hk2
          rcases hsegkeys k hk with hin | ⟨hge, _⟩
          · exact (hrudr k hin).2.2 hk2
          · obtain ⟨e, he, rfl⟩ := List.mem_map.mp hk2
            exact absurd (hbd e (hsuf.sublist.subset he)).1 (by omega)
        have hne1 : pu.2.1 ∉ tail1.map Prod.fst := by
          rw [hfeq] at hkeysnd
          simp only [List.map_cons] at hkeysnd
          exact (List.nodup_cons.mp hkeysnd).1
        have hftail' : FlChainR
            (fstoreSet pu.1 pu.2.1
              { fn1 with total := q.1.total + q.1.freed.length })
            fn1.next tail1 := by
          refine flChainR_congr pu.1 _ _ _ hftail ?_
          intro p hp
          exact flGet_set_ne pu.1 pu.2.1 p _ (fun hc => hne1 (hc ▸ hp))
        have hchfin : FlChainR
            (fstoreSet pu.1 pu.2.1
              { fn1 with total := q.1.total + q.1.freed.length })
            pu.2.1
            ((pu.2.1, { fn1 with total := q.1.total + q.1.freed.length }) :: tail1) :=
          .cons hne0 (flGet_set_self pu.1 pu.2.1 _) hftail'
        -- entry-count arithmetic
        have e1 : flEntryCount (seg ++ ch') =
            flEntryCount seg + flEntryCount ch' := flEntryCount_append _ _
        have e2 : flEntryCount (seg ++ ch') = fn1.size + flEntryCount tail1 := by
          rw [hfeq, flEntryCount_cons]
        have ecount : flEntryCount
            ((pu.2.1, { fn1 with total := q.1.total + q.1.freed.length }) :: tail1) =
            q.1.total + q.1.freed.length := by
          rw [flEntryCount_cons]
          show fn1.size + flEntryCount tail1 = q.1.total + q.1.freed.length
          omega
        -- chain length fits under the fuel
        have hsubp : (((pu.2.1, { fn1 with total := q.1.total + q.1.freed.length }) ::
              tail1).map Prod.fst).Subperm
            ((fstoreSet pu.1 pu.2.1
              { fn1 with total := q.1.total + q.1.freed.length }).pages.map
                Prod.fst) := by
          refine List.subperm_of_subset ?_ ?_
          · show (pu.2.1 :: tail1.map Prod.fst).Nodup
            rw [List.nodup_cons]
            refine ⟨hne1, ?_⟩
            rw [hfeq] at hkeysnd
            simp only [List.map_cons] at hkeysnd
            exact (List.nodup_cons.mp hkeysnd).2
          · exact flChainR_keys_subset _ _ _ hchfin
        have hlen : ((pu.2.1, { fn1 with total := q.1.total + q.1.freed.length }) ::
            tail1).length ≤
            (fstoreSet pu.1 pu.2.1
              { fn1 with total := q.1.total + q.1.freed.length }).pages.length + 1 := by
          have h5 := hsubp.length_le
          simp only [List.length_map] at h5
          omega
        refine ⟨(pu.2.1, { fn1 with total := q.1.total + q.1.freed.length }) :: tail1,
          flChain_of_flChainR _ _ _ hchfin _ hlen, ?_⟩
        simp only [flTotal]
        rw [flGet_set_self, ecount]
        rfl

/-- C8 witness: the amended theorem applied to a two-node free list
(entries 5 and 3, `Total() = 5`) updated with `Update(3, [17, 18])`:
the drain consumes both nodes, one pointer is reused to house the new
node and the new head's `Total()` is 5, matching the single remaining
node's five entries. -/
theorem c8_update_total_eq_entry_count_witness :
    ∃ ch', flChain
        (⟨20, [(5, ⟨2, 5, 3, [11, 12]⟩), (3, ⟨3, 0, 0, [13, 14, 15]⟩),
          (14, ⟨5, 5, 0, [17, 18, 5, 3, 13]⟩)]⟩ : FStore) 4 14 = some ch' ∧
      flTotal (⟨20, [(5, ⟨2, 5, 3, [11, 12]⟩), (3, ⟨3, 0, 0, [13, 14, 15]⟩),
          (14, ⟨5, 5, 0, [17, 18, 5, 3, 13]⟩)]⟩ : FStore) 14 =
        some (flEntryCount ch') :=
  c8_update_total_eq_entry_count
    ⟨20, [(5, ⟨2, 5, 3, [11, 12]⟩), (3, ⟨3, 0, 0, [13, 14, 15]⟩)]⟩ 5 3 [17, 18]
    [(5, ⟨2, 5, 3, [11, 12]⟩), (3, ⟨3, 0, 0, [13, 14, 15]⟩)]
    ⟨20, [(5, ⟨2, 5, 3, [11, 12]⟩), (3, ⟨3, 0, 0, [13, 14, 15]⟩),
      (14, ⟨5, 5, 0, [17, 18, 5, 3, 13]⟩)]⟩ 14
    [FEvent.get 5, FEvent.get 5, FEvent.get 5, FEvent.get 3,
      FEvent.use 14, FEvent.get 14]
    (by decide) (by decide) (by decide) (by decide) (by decide) (by decide)
    (by decide) (by decide) (by decide)

end TinyDb
